import Mathlib

/-!
Verification development for the herman gulpfile build-orchestration
logic: the process supervisor (spawnTask, the spawned array, the onError
sink), the registered task graph, the watch-event handler, the svg-clean
task, the JS test-runner argument builder, and a dependency resolver
modelled from the design document.
-/

namespace Gulp

/-- Shared exclusion glob patterns (gulpfile paths.IGNORE). -/
def IGNORE : List String := ["!**/.#*", "!**/flycheck_*"]

/-- Glob patterns for JS test coverage inclusion (gulpfile paths.JS_TESTS). -/
def JS_TESTS : List String := ["lib/**/*.js", "index.js"] ++ IGNORE

/-- A JavaScript value passed to the error sink: an Error object (with a
message string) or a bare numeric exit code. -/
inductive ErrVal
  | errObj (message : String)
  | code (c : Nat)
deriving DecidableEq

/-- The err.message field: present on Error objects, undefined on numbers. -/
def errMessage : ErrVal → Option String
  | .errObj m => some m
  | .code _ => none

/-- JS string coercion of the error value (template-literal interpolation). -/
def errToString : ErrVal → String
  | .errObj m => "Error: " ++ m
  | .code c => toString c

/-- chalk.red: color decoration of the logged text (content-preserving). -/
def chalkRed (s : String) : String := s

/-- Observable effects of one invocation of the error sink. -/
structure SinkEffect where
  logMsg : String
  beep : Bool
  emitEnd : Bool
deriving DecidableEq

/-- The onError sink (gulpfile lines 67-73). recv models the JS this
binding: none for a plain call (this undefined), some b for a stream
receiver where b records whether it has an emit method. The logged text is
err.message when truthy (defined and nonempty), else the fallback template. -/
def onError (recv : Option Bool) (err : ErrVal) : SinkEffect :=
  { logMsg := chalkRed (match errMessage err with
      | some m => if m = "" then "Task failed with code: " ++ errToString err else m
      | none => "Task failed with code: " ++ errToString err)
    beep := true
    emitEnd := recv.getD false }

/-- Events a spawned child can deliver to the handlers installed by
spawnTask: a spawn-level error, or process exit with a code. -/
inductive ChildEvent
  | errorEv (message : String)
  | exitEv (code : Nat)
deriving DecidableEq

/-- Observable outcome of one child event under spawnTask's handlers:
whether gutil.beep was called directly by the handler, the error-sink
invocation if any, and the argument the completion callback cb was
invoked with (none means cb() with no error). -/
structure SpawnOutcome where
  beepDirect : Bool
  sink : Option SinkEffect
  cbArg : Option ErrVal
deriving DecidableEq

/-- spawnTask's event handling (gulpfile lines 76-98). failOnError
defaults to true at JS call sites that omit it. On a spawn-level error:
beep then cb(err) when failOnError, else onError(err) then cb(). On exit:
cb() when the code is falsy (zero); otherwise beep then
cb(new Error(...)) when failOnError, else onError(code) then cb(). -/
def spawnTask (failOnError : Bool) : ChildEvent → SpawnOutcome
  | .errorEv msg =>
    if failOnError then
      { beepDirect := true, sink := none, cbArg := some (.errObj msg) }
    else
      { beepDirect := false, sink := some (onError none (.errObj msg)), cbArg := none }
  | .exitEv code =>
    if code ≠ 0 then
      if failOnError then
        { beepDirect := true, sink := none,
          cbArg := some (.errObj ("Task failed with code " ++ toString code)) }
      else
        { beepDirect := false, sink := some (onError none (.code code)), cbArg := none }
    else
      { beepDirect := false, sink := none, cbArg := none }

/-- Process-supervisor events: a child is spawned, or a child exits. -/
inductive PEvent
  | spawnEv (p : Nat)
  | exitEv (p : Nat)
deriving DecidableEq

/-- One supervisor event's effect on the spawned array (gulpfile lines
59-65 and 76-98): spawnTask pushes the new handle; the exit handler only
invokes the callback and does not remove the handle from the array. -/
def stepSpawned (l : List Nat) : PEvent → List Nat
  | .spawnEv p => l ++ [p]
  | .exitEv _ => l

/-- Contents of the spawned array after a trace of supervisor events. -/
def runSpawned (t : List PEvent) : List Nat := t.foldl stepSpawned []

/-- Modelled from the spec: the live-process set as the design document
describes it, grown on spawn and with the handle removed from the set when
that child exits. -/
def stepLive (l : List Nat) : PEvent → List Nat
  | .spawnEv p => l ++ [p]
  | .exitEv p => l.filter (fun q => q != p)

/-- Still-live child processes after a trace of supervisor events. -/
def liveProcesses (t : List PEvent) : List Nat := t.foldl stepLive []

/-- Handles sent a termination signal at parent shutdown: the
process.on exit hook iterates the spawned array and kills each handle
(gulpfile lines 61-65). -/
def shutdownSignals (t : List PEvent) : List Nat := runSpawned t

/-- Promise then with only an onFulfilled handler: the handler runs exactly
when the promise fulfils; a rejection propagates past it unhandled. -/
def thenRuns {E A : Type} (r : Except E A) : Bool :=
  match r with
  | .ok _ => true
  | .error _ => false

/-- The svg-clean task (gulpfile lines 345-349) runs
del(templates/_icons.svg).then(() => cb()): whether the task callback cb
is invoked, for a given outcome of the deletion promise. -/
def svgCleanSignalsCompletion (r : Except String (List String)) : Bool :=
  thenRuns r

/-- A filesystem watch event (gulp.watch callback argument). -/
structure WatchEvent where
  type : String
  path : String
deriving DecidableEq

/-- The per-event watch handler on SASS sources (gulpfile lines 318-322):
returns the sasslintTask invocation (src, failOnError, log) it makes, or
none when the event type does not match its filter. -/
def sassWatchLint (ev : WatchEvent) : Option (String × Bool × Bool) :=
  if ev.type = "added" ∨ ev.type = "changed" then some (ev.path, false, true) else none

/-- A JS option value in the nyc argument object: string, boolean, or
array of strings. -/
inductive OptVal
  | str (s : String)
  | boolean (b : Bool)
  | arr (vs : List String)

/-- getJsTestArgs (gulpfile lines 174-197): builds the nyc/mocha argument
list. The object's keys are iterated in insertion order and each produced
option string is unshifted onto the front of the initial mocha arguments. -/
def getJsTestArgs (verbose : Bool) : List String :=
  let mochaReporter := if verbose then "spec" else "dot"
  let covReporters :=
    if verbose then ["text", "html", "lcovonly"]
    else ["text-summary", "html", "lcovonly"]
  let obj : List (String × OptVal) :=
    [("include", .arr JS_TESTS), ("reporter", .arr covReporters),
     ("cache", .boolean true), ("all", .boolean true),
     ("report-dir", .str "./jscov")]
  let args0 := ["./node_modules/.bin/mocha", "--reporter", mochaReporter]
  obj.foldl (fun args kv =>
    match kv.2 with
    | .arr vs => vs.foldl (fun a v => ("--" ++ kv.1 ++ "=" ++ v) :: a) args
    | .boolean b => ("--" ++ kv.1 ++ "=" ++ (if b then "true" else "false")) :: args
    | .str s => ("--" ++ kv.1 ++ "=" ++ s) :: args) args0

/-- The spawnTask invocation made by the jstest task (gulpfile lines
199-201): command, arguments, failOnError. -/
def jstestSpawn : String × List String × Bool :=
  ("./node_modules/.bin/nyc", getJsTestArgs true, true)

/-- The spawnTask invocation made by the jstest-nofail task (gulpfile
lines 203-205); getJsTestArgs is called with no argument, so verbose is
undefined (falsy). -/
def jstestNofailSpawn : String × List String × Bool :=
  ("./node_modules/.bin/nyc", getJsTestArgs false, false)

/-- Checks that a string has the shape of a long option assignment,
two leading dashes followed by text containing an equals sign. -/
def isOptionArg (s : String) : Bool :=
  match s.data with
  | '-' :: '-' :: rest => rest.contains '='
  | _ => false

/-- A task registry: task name with its ordered prerequisite list, in
registration order. -/
structure Graph where
  tasks : List (String × List String)

/-- First-match lookup of a task's prerequisite list in a registry. -/
def lookupTask (n : String) : List (String × List String) → Option (List String)
  | [] => none
  | p :: rest => if p.1 = n then some p.2 else lookupTask n rest

/-- Prerequisites of a registered task name, none if unregistered. -/
def prereqs (g : Graph) (n : String) : Option (List String) :=
  lookupTask n g.tasks

/-- All registered task names. -/
def names (g : Graph) : List String := g.tasks.map Prod.fst

/-- The gulp.task registrations of the gulpfile (lines 144-384), in file
order, each with its prerequisite list exactly as declared. -/
def gulpTasks : List (String × List String) :=
  [("prettier", []),
   ("eslint", ["prettier"]),
   ("eslint-nofail", []),
   ("sasslint", []),
   ("sasslint-nofail", []),
   ("sass", []),
   ("sasstest", []),
   ("jstest", []),
   ("jstest-nofail", []),
   ("test", ["sasstest", "jstest"]),
   ("browser-sync", []),
   ("compile", ["sass", "minify"]),
   ("default", ["compile", "eslint", "sasslint", "test"]),
   ("serve", ["watch", "browser-sync"]),
   ("dev", ["prettier", "eslint-nofail", "sasslint-nofail", "test", "watch"]),
   ("watch", []),
   ("copy-fonts", []),
   ("jsmin", []),
   ("svg-clean", []),
   ("svgmin", ["svg-clean"]),
   ("imagemin", []),
   ("minify", ["jsmin", "svgmin", "imagemin", "copy-fonts"])]

/-- The gulpfile's registered task graph. -/
def gulpGraph : Graph := ⟨gulpTasks⟩

/-- One dependency edge: b is a declared prerequisite of a. -/
def edgeB (g : Graph) (a b : String) : Bool :=
  match prereqs g a with
  | none => false
  | some ps => ps.contains b

/-- Reachability along dependency edges (zero or more steps). -/
def Reaches (g : Graph) (a b : String) : Prop :=
  Relation.ReflTransGen (fun x y => edgeB g x y = true) a b

/-- Fuel-bounded reachability in one or more steps: true when some
prerequisite path of length between 1 and fuel leads from a to b. -/
def reachB (g : Graph) : Nat → String → String → Bool
  | 0, _, _ => false
  | fuel + 1, a, b =>
    match prereqs g a with
    | none => false
    | some ps => ps.any (fun c => c == b || reachB g fuel c b)

/-- Decidable acyclicity: no registered task reaches itself along
prerequisite edges within as many steps as there are tasks (for a closed
registry this excludes cycles of every length). -/
def AcyclicB (g : Graph) : Prop :=
  ∀ p ∈ g.tasks, reachB g g.tasks.length p.1 p.1 = false

/-- A registry is closed when every declared prerequisite is itself a
registered task name. -/
def Closed (g : Graph) : Prop :=
  ∀ p ∈ g.tasks, ∀ q ∈ p.2, q ∈ names g

/-- A concrete height certificate for the gulpfile graph: every declared
prerequisite has strictly smaller height than its dependent. -/
def gulpHeight (n : String) : Nat :=
  if n = "default" then 4
  else if n = "compile" then 3
  else if n = "minify" ∨ n = "dev" then 2
  else if n = "eslint" ∨ n = "test" ∨ n = "svgmin" ∨ n = "serve" then 1
  else 0

/-- Errors of the dependency resolver. -/
inductive RErr
  | cyclic
  | unknownTask
  | outOfFuel
deriving DecidableEq

/-- Modelled from the spec: the Dependency Resolver of design-document
section 4.2, which is part of the task runner (gulp) and not of this
repository's source. Depth-first traversal from the requested tasks,
visiting declared prerequisites in order before the task itself, skipping
tasks already in the output, tracking the in-progress (gray) path to fail
with a cycle error when a gray task is revisited, and failing with an
unknown-task error on unregistered names. Structural fuel bounds the
recursion depth; resolve supplies enough fuel that it is never exhausted. -/
def resolveAux (g : Graph) : Nat → List String → List String → List String →
    Except RErr (List String)
  | _, _, out, [] => .ok out
  | 0, _, _, _ :: _ => .error .outOfFuel
  | fuel + 1, gray, out, n :: rest =>
    if n ∈ gray then .error .cyclic
    else if n ∈ out then resolveAux g fuel gray out rest
    else
      match prereqs g n with
      | none => .error .unknownTask
      | some ps =>
        match resolveAux g fuel (n :: gray) out ps with
        | .error e => .error e
        | .ok out2 => resolveAux g fuel gray (out2 ++ [n]) rest

/-- Fuel budget: one unit per pending name plus one per task and per
declared prerequisite edge, which the totality proof shows is enough. -/
def resolveFuel (g : Graph) : Nat :=
  1 + g.tasks.length + (g.tasks.map (fun p => p.2.length)).sum

/-- Modelled from the spec: resolve(name) of design-document section 4.2. -/
def resolve (g : Graph) (n : String) : Except RErr (List String) :=
  resolveAux g (resolveFuel g) [] [] [n]

/-- The three-task scenario of design-document section 8: A with no
prerequisites, B with prerequisite A, C with prerequisites [A, B]. -/
def abcGraph : Graph := ⟨[("A", []), ("B", ["A"]), ("C", ["A", "B"])]⟩

/-- A two-task cyclic registry: A depends on B and B depends on A. -/
def cycGraph : Graph := ⟨[("A", ["B"]), ("B", ["A"])]⟩

/-- Two mutually independent tasks A and B, and a task C whose
prerequisite list declares them in the order [B, A]: resolving C makes
the declaration-order tie-break observable, since both sibling orders are
valid topological orders here. -/
def baGraph : Graph := ⟨[("A", []), ("B", []), ("C", ["B", "A"])]⟩

/-- The weight a not-yet-finished task contributes to the fuel potential. -/
def taskWeight (p : String × List String) : Nat := 1 + p.2.length

/-- Fuel potential: total weight of registered tasks neither on the gray
path nor already in the output. -/
def need (g : Graph) (gray out : List String) : Nat :=
  ((g.tasks.filter (fun p => !(decide (p.1 ∈ gray)) && !(decide (p.1 ∈ out)))).map
    taskWeight).sum

/-- The gray list is a chain of dependency edges ending just above n: its
head is a task having n as declared prerequisite, and so on upward. -/
def IsChain (g : Graph) : String → List String → Prop
  | _, [] => True
  | n, p :: rest => edgeB g p n = true ∧ IsChain g p rest

/-- Bundled invariants of the resolver's accumulated output: no
duplicates, disjoint from the gray path, closed under declared
prerequisites, no task placed before one of its prerequisites, and no
self-edges. -/
def GoodOut (g : Graph) (gray out : List String) : Prop :=
  out.Nodup ∧
  (∀ x ∈ gray, x ∉ out) ∧
  (∀ t ∈ out, ∀ m, edgeB g t m = true → m ∈ out) ∧
  List.Pairwise (fun a b => edgeB g a b = false) out ∧
  (∀ t ∈ out, edgeB g t t = false)

instance (g : Graph) : Decidable (AcyclicB g) := by
  unfold AcyclicB; infer_instance

instance (g : Graph) : Decidable (Closed g) := by
  unfold Closed; infer_instance

/-! Helper lemmas about the registry lookup and the edge relation. -/

theorem lookupTask_mem {n : String} {ps : List String} :
    ∀ {l : List (String × List String)}, lookupTask n l = some ps → (n, ps) ∈ l := by
  intro l
  induction l with
  | nil => intro h; simp [lookupTask] at h
  | cons p rest ih =>
    intro h
    rw [lookupTask] at h
    by_cases hp : p.1 = n
    · rw [if_pos hp] at h
      obtain rfl := Option.some.inj h
      exact List.mem_cons.mpr (Or.inl (by obtain ⟨p1, p2⟩ := p; simp only at hp; simp [hp]))
    · rw [if_neg hp] at h
      exact List.mem_cons_of_mem p (ih h)

theorem exists_lookupTask_of_mem_names {n : String} :
    ∀ {l : List (String × List String)}, n ∈ l.map Prod.fst →
      ∃ ps, lookupTask n l = some ps := by
  intro l
  induction l with
  | nil => intro h; simp at h
  | cons p rest ih =>
    intro h
    rw [lookupTask]
    by_cases hp : p.1 = n
    · exact ⟨p.2, if_pos hp⟩
    · rw [List.map_cons, List.mem_cons] at h
      rcases h with h | h
      · exact absurd h.symm hp
      · rcases ih h with ⟨ps, hps⟩
        exact ⟨ps, by rw [if_neg hp]; exact hps⟩

theorem mem_names_of_lookupTask {g : Graph} {n : String} {ps : List String}
    (h : prereqs g n = some ps) : n ∈ names g := by
  have := lookupTask_mem (l := g.tasks) h
  exact List.mem_map.mpr ⟨(n, ps), this, rfl⟩

theorem edgeB_iff {g : Graph} {a b : String} :
    edgeB g a b = true ↔ ∃ ps, prereqs g a = some ps ∧ b ∈ ps := by
  unfold edgeB
  cases h : prereqs g a with
  | none => simp
  | some ps => simp

/-! Helper lemmas about fuel-bounded reachability. -/

theorem reachB_mono {g : Graph} :
    ∀ {f1 f2 : Nat} {a b : String}, f1 ≤ f2 → reachB g f1 a b = true →
      reachB g f2 a b = true := by
  intro f1
  induction f1 with
  | zero => intro f2 a b _ h; simp [reachB] at h
  | succ f1 ih =>
    intro f2 a b hle h
    obtain ⟨f2', rfl⟩ : ∃ f2', f2 = f2' + 1 :=
      ⟨f2 - 1, by omega⟩
    rw [reachB] at h ⊢
    cases hp : prereqs g a with
    | none => rw [hp] at h; exact absurd h (by simp)
    | some ps =>
      rw [hp] at h
      rw [List.any_eq_true] at h ⊢
      obtain ⟨c, hc, hcb⟩ := h
      refine ⟨c, hc, ?_⟩
      rw [Bool.or_eq_true] at hcb ⊢
      rcases hcb with hcb | hcb
      · exact Or.inl hcb
      · exact Or.inr (ih (by omega) hcb)

theorem reachB_of_edge {g : Graph} {a b : String} {f : Nat}
    (h : edgeB g a b = true) : reachB g (f + 1) a b = true := by
  rw [edgeB_iff] at h
  obtain ⟨ps, hps, hb⟩ := h
  rw [reachB, hps, List.any_eq_true]
  exact ⟨b, hb, by simp⟩

theorem reachB_snoc {g : Graph} :
    ∀ {f : Nat} {a b c : String}, reachB g f a b = true → edgeB g b c = true →
      reachB g (f + 1) a c = true := by
  intro f
  induction f with
  | zero => intro a b c h _; simp [reachB] at h
  | succ f ih =>
    intro a b c h he
    rw [reachB] at h
    cases hp : prereqs g a with
    | none => rw [hp] at h; exact absurd h (by simp)
    | some ps =>
      rw [hp] at h
      rw [List.any_eq_true] at h
      obtain ⟨d, hd, hdb⟩ := h
      rw [Bool.or_eq_true, beq_iff_eq] at hdb
      rw [reachB, hp, List.any_eq_true]
      refine ⟨d, hd, ?_⟩
      rw [Bool.or_eq_true]
      rcases hdb with rfl | hdb
      · exact Or.inr (reachB_of_edge he)
      · exact Or.inr (ih hdb he)

theorem chain_reach {g : Graph} :
    ∀ {gray : List String} {n m : String}, IsChain g n gray → m ∈ gray →
      reachB g gray.length m n = true := by
  intro gray
  induction gray with
  | nil => intro n m _ hm; simp at hm
  | cons p rest ih =>
    intro n m hch hm
    obtain ⟨hedge, hrest⟩ := hch
    rw [List.mem_cons] at hm
    rcases hm with rfl | hm
    · exact reachB_of_edge hedge
    · exact reachB_snoc (ih hrest hm) hedge

/-- Under closedness and bounded acyclicity, no name on a gray chain can be
the task the chain currently descends from. -/
theorem no_gray_revisit {g : Graph} (hac : AcyclicB g) {gray : List String}
    {n : String} (hch : IsChain g n gray) (hsub : ∀ x ∈ gray, x ∈ names g)
    (hnd : gray.Nodup) (hn : n ∈ gray) : False := by
  have h1 : reachB g gray.length n n = true := chain_reach hch hn
  have hlen : gray.length ≤ (names g).length :=
    List.Subperm.length_le (List.Nodup.subperm hnd (fun x hx => hsub x hx))
  have h2 : reachB g g.tasks.length n n = true := by
    have : (names g).length = g.tasks.length := by simp [names]
    exact reachB_mono (by omega) h1
  have hn' : n ∈ names g := hsub n hn
  obtain ⟨p, hp, hfst⟩ := List.mem_map.mp hn'
  have := hac p hp
  rw [hfst] at this
  rw [this] at h2
  exact absurd h2 (by simp)

/-! Helper lemmas about the fuel potential. -/

theorem sum_taskWeight (l : List (String × List String)) :
    (l.map taskWeight).sum = l.length + (l.map (fun p => p.2.length)).sum := by
  induction l with
  | nil => simp
  | cons p rest ih =>
    simp only [List.map_cons, List.sum_cons, List.length_cons, taskWeight, ih]
    omega

theorem need_nil_nil (g : Graph) :
    need g [] [] = g.tasks.length + (g.tasks.map (fun p => p.2.length)).sum := by
  unfold need
  have hfil : g.tasks.filter
      (fun p => !(decide (p.1 ∈ ([] : List String))) &&
        !(decide (p.1 ∈ ([] : List String)))) = g.tasks := by
    apply List.filter_eq_self.mpr
    intro p _
    simp
  rw [hfil, sum_taskWeight]

theorem resolveFuel_eq (g : Graph) : resolveFuel g = 1 + need g [] [] := by
  rw [resolveFuel, need_nil_nil]
  omega

theorem need_mono_out {g : Graph} {gray out out' : List String}
    (h : ∀ x ∈ out, x ∈ out') : need g gray out' ≤ need g gray out := by
  unfold need
  apply List.Sublist.sum_le_sum ?_ (fun a _ => Nat.zero_le a)
  apply List.Sublist.map
  apply List.monotone_filter_right
  intro p hp
  simp only [Bool.and_eq_true, Bool.not_eq_true', decide_eq_false_iff_not] at hp ⊢
  exact ⟨hp.1, fun hmem => hp.2 (h _ hmem)⟩

theorem need_descend_aux {n : String} {ps gray out : List String} :
    ∀ {l : List (String × List String)}, (l.map Prod.fst).Nodup →
      (n, ps) ∈ l → n ∉ gray → n ∉ out →
      1 + ps.length +
        ((l.filter (fun p => !(decide (p.1 ∈ n :: gray)) &&
          !(decide (p.1 ∈ out)))).map taskWeight).sum ≤
        ((l.filter (fun p => !(decide (p.1 ∈ gray)) &&
          !(decide (p.1 ∈ out)))).map taskWeight).sum := by
  intro l
  induction l with
  | nil => intro _ hm; simp at hm
  | cons p rest ih =>
    intro hnd hm hgray hout
    rw [List.map_cons, List.nodup_cons] at hnd
    obtain ⟨hp1, hndrest⟩ := hnd
    rw [List.mem_cons] at hm
    rcases hm with rfl | hm
    · have hsame : rest.filter (fun p => !(decide (p.1 ∈ n :: gray)) &&
          !(decide (p.1 ∈ out))) =
          rest.filter (fun p => !(decide (p.1 ∈ gray)) && !(decide (p.1 ∈ out))) := by
        apply List.filter_congr
        intro q hq
        have hq1 : q.1 ≠ n := by
          intro he
          exact hp1 (he ▸ List.mem_map.mpr ⟨q, hq, rfl⟩)
        simp [List.mem_cons, hq1]
      have e1 : ((n, ps) :: rest).filter
          (fun p => !(decide (p.1 ∈ n :: gray)) && !(decide (p.1 ∈ out))) =
          rest.filter (fun p => !(decide (p.1 ∈ gray)) && !(decide (p.1 ∈ out))) := by
        simp only [List.filter_cons]
        have hdrop : (!(decide ((n, ps).1 ∈ n :: gray)) &&
            !(decide ((n, ps).1 ∈ out))) = false := by simp
        rw [hdrop]
        simpa using hsame
      have e2 : ((n, ps) :: rest).filter
          (fun p => !(decide (p.1 ∈ gray)) && !(decide (p.1 ∈ out))) =
          (n, ps) :: rest.filter (fun p => !(decide (p.1 ∈ gray)) &&
            !(decide (p.1 ∈ out))) := by
        simp only [List.filter_cons]
        have hkeep : (!(decide ((n, ps).1 ∈ gray)) &&
            !(decide ((n, ps).1 ∈ out))) = true := by simp [hgray, hout]
        rw [hkeep]
        simp
      rw [e1, e2]
      simp only [List.map_cons, List.sum_cons, taskWeight]
      omega
    · have hp1n : p.1 ≠ n := by
        intro he
        exact hp1 (he ▸ List.mem_map.mpr ⟨(n, ps), hm, rfl⟩)
      have hsame : (!(decide (p.1 ∈ n :: gray)) && !(decide (p.1 ∈ out))) =
          (!(decide (p.1 ∈ gray)) && !(decide (p.1 ∈ out))) := by
        simp [List.mem_cons, hp1n]
      simp only [List.filter_cons, hsame]
      by_cases hc : (!(decide (p.1 ∈ gray)) && !(decide (p.1 ∈ out))) = true
      · rw [if_pos hc, if_pos hc]
        simp only [List.map_cons, List.sum_cons]
        have := ih hndrest hm hgray hout
        omega
      · rw [if_neg hc, if_neg hc]
        exact ih hndrest hm hgray hout

theorem need_descend {g : Graph} (hnd : (names g).Nodup) {n : String}
    {ps gray out : List String} (hmem : (n, ps) ∈ g.tasks)
    (hgray : n ∉ gray) (hout : n ∉ out) :
    1 + ps.length + need g (n :: gray) out ≤ need g gray out :=
  need_descend_aux hnd hmem hgray hout

/-! Helper lemmas about reachability closure and output extension. -/

theorem mem_of_reaches_closed {g : Graph} {out : List String}
    (hD : ∀ t ∈ out, ∀ m, edgeB g t m = true → m ∈ out) {a b : String}
    (ha : a ∈ out) (hr : Reaches g a b) : b ∈ out := by
  induction hr with
  | refl => exact ha
  | tail _ he ih => exact hD _ ih _ he

theorem resolveAux_extend {g : Graph} :
    ∀ {fuel : Nat} {gray out ns out' : List String},
      resolveAux g fuel gray out ns = .ok out' → ∃ ext, out' = out ++ ext := by
  intro fuel
  induction fuel with
  | zero =>
    intro gray out ns out' h
    cases ns with
    | nil =>
      simp only [resolveAux, Except.ok.injEq] at h
      exact ⟨[], by simp [h]⟩
    | cons n rest => simp [resolveAux] at h
  | succ fuel ih =>
    intro gray out ns out' h
    cases ns with
    | nil =>
      simp only [resolveAux, Except.ok.injEq] at h
      exact ⟨[], by simp [h]⟩
    | cons n rest =>
      rw [resolveAux.eq_3] at h
      by_cases hg : n ∈ gray
      · simp [hg] at h
      · by_cases ho : n ∈ out
        · rw [if_neg hg, if_pos ho] at h
          exact ih h
        · rw [if_neg hg, if_neg ho] at h
          split at h
          · simp at h
          · split at h
            · simp at h
            · rename_i out2 hrec
              obtain ⟨e1, rfl⟩ := ih hrec
              obtain ⟨e2, rfl⟩ := ih h
              exact ⟨e1 ++ [n] ++ e2, by simp⟩

/-- Appending the task whose prerequisites were just fully resolved keeps
all output invariants. -/
theorem GoodOut_extend {g : Graph} {gray out2 ps : List String} {n : String}
    (hng : n ∉ gray) (hp : prereqs g n = some ps)
    (hgo2 : GoodOut g (n :: gray) out2)
    (hps : ∀ k ∈ ps, k ∈ out2) :
    GoodOut g gray (out2 ++ [n]) := by
  obtain ⟨hnd2, hdisj2, hD2, hF2, hG2⟩ := hgo2
  have hn2 : n ∉ out2 := hdisj2 n (List.mem_cons_self n gray)
  have hnps : n ∉ ps := fun hmm => hn2 (hps n hmm)
  refine ⟨?_, ?_, ?_, ?_, ?_⟩
  · rw [List.nodup_append]
    refine ⟨hnd2, List.nodup_singleton n, ?_⟩
    intro x hx hx1
    rw [List.mem_singleton] at hx1
    exact hn2 (hx1 ▸ hx)
  · intro x hx hmm
    rw [List.mem_append, List.mem_singleton] at hmm
    rcases hmm with h2 | rfl
    · exact hdisj2 x (List.mem_cons_of_mem n hx) h2
    · exact hng hx
  · intro t ht m he
    rw [List.mem_append, List.mem_singleton] at ht
    rw [List.mem_append, List.mem_singleton]
    rcases ht with ht | rfl
    · exact Or.inl (hD2 t ht m he)
    · rw [edgeB_iff] at he
      obtain ⟨ps', hp', hm'⟩ := he
      rw [hp] at hp'
      obtain rfl := Option.some.inj hp'
      exact Or.inl (hps m hm')
  · rw [List.pairwise_append]
    refine ⟨hF2, List.pairwise_singleton _ _, ?_⟩
    intro a ha b hb
    rw [List.mem_singleton] at hb
    rw [hb]
    by_contra hne
    rw [Bool.not_eq_false] at hne
    exact hn2 (hD2 a ha n hne)
  · intro t ht
    rw [List.mem_append, List.mem_singleton] at ht
    rcases ht with ht | rfl
    · exact hG2 t ht
    · by_contra hne
      rw [Bool.not_eq_false] at hne
      rw [edgeB_iff] at hne
      obtain ⟨ps', hp', hm'⟩ := hne
      rw [hp] at hp'
      obtain rfl := Option.some.inj hp'
      exact hnps hm'

/-- Soundness of the resolver: on success the output invariants hold, every
requested task is in the output, and the output is exactly the old output
plus everything reachable from the requested tasks. -/
theorem resolveAux_sound {g : Graph} :
    ∀ {fuel : Nat} {gray out ns out' : List String},
      GoodOut g gray out →
      resolveAux g fuel gray out ns = .ok out' →
      GoodOut g gray out' ∧ (∀ k ∈ ns, k ∈ out') ∧
        (∀ m, m ∈ out' ↔ m ∈ out ∨ ∃ k ∈ ns, Reaches g k m) := by
  intro fuel
  induction fuel with
  | zero =>
    intro gray out ns out' hgo h
    cases ns with
    | nil =>
      simp only [resolveAux, Except.ok.injEq] at h
      subst h
      exact ⟨hgo, by simp, by simp⟩
    | cons n rest => simp [resolveAux] at h
  | succ fuel ih =>
    intro gray out ns out' hgo h
    cases ns with
    | nil =>
      simp only [resolveAux, Except.ok.injEq] at h
      subst h
      exact ⟨hgo, by simp, by simp⟩
    | cons n rest =>
      rw [resolveAux.eq_3] at h
      by_cases hg : n ∈ gray
      · simp [hg] at h
      · by_cases ho : n ∈ out
        · rw [if_neg hg, if_pos ho] at h
          obtain ⟨hgo', hns, hmem⟩ := ih hgo h
          refine ⟨hgo', ?_, ?_⟩
          · intro k hk
            rw [List.mem_cons] at hk
            rcases hk with rfl | hk
            · exact (hmem k).mpr (Or.inl ho)
            · exact hns k hk
          · intro m
            rw [hmem m]
            constructor
            · rintro (hm | ⟨k, hk, hr⟩)
              · exact Or.inl hm
              · exact Or.inr ⟨k, List.mem_cons_of_mem n hk, hr⟩
            · rintro (hm | ⟨k, hk, hr⟩)
              · exact Or.inl hm
              · rw [List.mem_cons] at hk
                rcases hk with rfl | hk
                · exact Or.inl (mem_of_reaches_closed hgo.2.2.1 ho hr)
                · exact Or.inr ⟨k, hk, hr⟩
        · rw [if_neg hg, if_neg ho] at h
          split at h
          · simp at h
          · rename_i ps hp
            split at h
            · simp at h
            · rename_i out2 hrec
              have hgo1 : GoodOut g (n :: gray) out := by
                obtain ⟨h1, h2, h3, h4, h5⟩ := hgo
                refine ⟨h1, ?_, h3, h4, h5⟩
                intro x hx
                rw [List.mem_cons] at hx
                rcases hx with rfl | hx
                · exact ho
                · exact h2 x hx
              obtain ⟨hgo2, hps2, hmem2⟩ := ih hgo1 hrec
              have hext : GoodOut g gray (out2 ++ [n]) :=
                GoodOut_extend hg hp hgo2 hps2
              obtain ⟨hgo3, hns3, hmem3⟩ := ih hext h
              have hn_in : n ∈ out' := (hmem3 n).mpr (Or.inl (by simp))
              refine ⟨hgo3, ?_, ?_⟩
              · intro k hk
                rw [List.mem_cons] at hk
                rcases hk with rfl | hk
                · exact hn_in
                · exact hns3 k hk
              · intro m
                rw [hmem3 m]
                constructor
                · rintro (hm | ⟨k, hk, hr⟩)
                  · rw [List.mem_append, List.mem_singleton] at hm
                    rcases hm with hm | rfl
                    · rcases (hmem2 m).mp hm with hm' | ⟨k, hk, hr⟩
                      · exact Or.inl hm'
                      · refine Or.inr ⟨n, List.mem_cons_self n rest, ?_⟩
                        exact Relation.ReflTransGen.head
                          (edgeB_iff.mpr ⟨ps, hp, hk⟩) hr
                    · exact Or.inr ⟨m, List.mem_cons_self m rest,
                        Relation.ReflTransGen.refl⟩
                  · exact Or.inr ⟨k, List.mem_cons_of_mem n hk, hr⟩
                · rintro (hm | ⟨k, hk, hr⟩)
                  · refine Or.inl ?_
                    rw [List.mem_append]
                    exact Or.inl ((hmem2 m).mpr (Or.inl hm))
                  · rw [List.mem_cons] at hk
                    rcases hk with rfl | hk
                    · rcases Relation.ReflTransGen.cases_head hr with rfl | ⟨c, hc, hr'⟩
                      · refine Or.inl ?_
                        rw [List.mem_append, List.mem_singleton]
                        exact Or.inr rfl
                      · have hcps : c ∈ ps := by
                          rw [edgeB_iff] at hc
                          obtain ⟨ps', hp', hcm⟩ := hc
                          rw [hp] at hp'
                          obtain rfl := Option.some.inj hp'
                          exact hcm
                        refine Or.inl ?_
                        rw [List.mem_append]
                        exact Or.inl ((hmem2 m).mpr (Or.inr ⟨c, hcps, hr'⟩))
                    · exact Or.inr ⟨k, hk, hr⟩

/-- With a closed registry of distinct names and sufficient fuel, the
resolver never fails with fuel exhaustion or an unknown task. -/
theorem resolveAux_no_fuel_unknown {g : Graph} (hnd : (names g).Nodup)
    (hcl : Closed g) :
    ∀ {fuel : Nat} {gray out ns : List String},
      (∀ k ∈ ns, k ∈ names g) →
      ns.length + need g gray out ≤ fuel →
      ∀ e, resolveAux g fuel gray out ns = .error e →
        e ≠ .outOfFuel ∧ e ≠ .unknownTask := by
  intro fuel
  induction fuel with
  | zero =>
    intro gray out ns hns hfuel e h
    cases ns with
    | nil => simp [resolveAux] at h
    | cons n rest =>
      rw [List.length_cons] at hfuel
      omega
  | succ fuel ih =>
    intro gray out ns hns hfuel e h
    cases ns with
    | nil => simp [resolveAux] at h
    | cons n rest =>
      rw [List.length_cons] at hfuel
      rw [resolveAux.eq_3] at h
      by_cases hg : n ∈ gray
      · rw [if_pos hg] at h
        obtain rfl : RErr.cyclic = e := Except.error.inj h
        exact ⟨by decide, by decide⟩
      · by_cases ho : n ∈ out
        · rw [if_neg hg, if_pos ho] at h
          exact ih (fun k hk => hns k (List.mem_cons_of_mem n hk)) (by omega) e h
        · rw [if_neg hg, if_neg ho] at h
          split at h
          · rename_i hp
            obtain ⟨ps, hps⟩ :=
              exists_lookupTask_of_mem_names (hns n (List.mem_cons_self n rest))
            have h2 : prereqs g n = some ps := hps
            rw [h2] at hp
            simp at hp
          · rename_i ps hp
            have hmem : (n, ps) ∈ g.tasks := lookupTask_mem hp
            have hL1 : 1 + ps.length + need g (n :: gray) out ≤ need g gray out :=
              need_descend hnd hmem hg ho
            have hpsnames : ∀ k ∈ ps, k ∈ names g :=
              fun k hk => hcl (n, ps) hmem k hk
            split at h
            · rename_i e' hrec
              obtain rfl : e' = e := Except.error.inj h
              exact ih hpsnames (by omega) _ hrec
            · rename_i out2 hrec
              obtain ⟨ext, rfl⟩ := resolveAux_extend hrec
              have hsub : ∀ x ∈ out, x ∈ (out ++ ext) ++ [n] := by
                intro x hx
                rw [List.mem_append, List.mem_append]
                exact Or.inl (Or.inl hx)
              have hL2 : need g gray ((out ++ ext) ++ [n]) ≤ need g gray out :=
                need_mono_out hsub
              exact ih (fun k hk => hns k (List.mem_cons_of_mem n hk)) (by omega) e h

/-- Totality of the resolver on acyclic closed registries: with
sufficient fuel and valid invariants the resolver succeeds. -/
theorem resolveAux_total {g : Graph} (hnd : (names g).Nodup) (hcl : Closed g)
    (hac : AcyclicB g) :
    ∀ {fuel : Nat} {gray out ns : List String},
      GoodOut g gray out → gray.Nodup → (∀ x ∈ gray, x ∈ names g) →
      (∀ k ∈ ns, k ∈ names g) → (∀ k ∈ ns, IsChain g k gray) →
      ns.length + need g gray out ≤ fuel →
      ∃ out', resolveAux g fuel gray out ns = .ok out' := by
  intro fuel
  induction fuel with
  | zero =>
    intro gray out ns hgo hgnd hgnames hns hch hfuel
    cases ns with
    | nil => exact ⟨out, by simp [resolveAux]⟩
    | cons n rest =>
      rw [List.length_cons] at hfuel
      omega
  | succ fuel ih =>
    intro gray out ns hgo hgnd hgnames hns hch hfuel
    cases ns with
    | nil => exact ⟨out, by simp [resolveAux]⟩
    | cons n rest =>
      rw [List.length_cons] at hfuel
      by_cases hg : n ∈ gray
      · exact absurd hg (fun hg' =>
          no_gray_revisit hac (hch n (List.mem_cons_self n rest)) hgnames hgnd hg')
      · by_cases ho : n ∈ out
        · obtain ⟨out', hout'⟩ := ih hgo hgnd hgnames
            (fun k hk => hns k (List.mem_cons_of_mem n hk))
            (fun k hk => hch k (List.mem_cons_of_mem n hk)) (by omega)
          refine ⟨out', ?_⟩
          rw [resolveAux.eq_3, if_neg hg, if_pos ho]
          exact hout'
        · obtain ⟨ps, hps⟩ :=
            exists_lookupTask_of_mem_names (hns n (List.mem_cons_self n rest))
          have hp : prereqs g n = some ps := hps
          have hmem : (n, ps) ∈ g.tasks := lookupTask_mem hp
          have hL1 : 1 + ps.length + need g (n :: gray) out ≤ need g gray out :=
            need_descend hnd hmem hg ho
          have hgo1 : GoodOut g (n :: gray) out := by
            obtain ⟨h1, h2, h3, h4, h5⟩ := hgo
            refine ⟨h1, ?_, h3, h4, h5⟩
            intro x hx
            rw [List.mem_cons] at hx
            rcases hx with rfl | hx
            · exact ho
            · exact h2 x hx
          have hpsnames : ∀ k ∈ ps, k ∈ names g :=
            fun k hk => hcl (n, ps) hmem k hk
          obtain ⟨out2, hrec⟩ := ih hgo1 (List.nodup_cons.mpr ⟨hg, hgnd⟩)
            (by
              intro x hx
              rw [List.mem_cons] at hx
              rcases hx with rfl | hx
              · exact hns x (List.mem_cons_self x rest)
              · exact hgnames x hx)
            hpsnames
            (by
              intro k hk
              exact ⟨edgeB_iff.mpr ⟨ps, hp, hk⟩, hch n (List.mem_cons_self n rest)⟩)
            (by omega)
          obtain ⟨hgo2, hps2, hmem2⟩ := resolveAux_sound hgo1 hrec
          have hext : GoodOut g gray (out2 ++ [n]) :=
            GoodOut_extend hg hp hgo2 hps2
          obtain ⟨ext, hee⟩ := resolveAux_extend hrec
          have hsub : ∀ x ∈ out, x ∈ out2 ++ [n] := by
            intro x hx
            rw [List.mem_append]
            exact Or.inl (by rw [hee, List.mem_append]; exact Or.inl hx)
          have hL2 : need g gray (out2 ++ [n]) ≤ need g gray out :=
            need_mono_out hsub
          obtain ⟨out', hcont⟩ := ih hext hgnd hgnames
            (fun k hk => hns k (List.mem_cons_of_mem n hk))
            (fun k hk => hch k (List.mem_cons_of_mem n hk)) (by omega)
          refine ⟨out', ?_⟩
          rw [resolveAux.eq_3, if_neg hg, if_neg ho]
          simp only [hp, hrec]
          exact hcont

/-! Ordering consequences of the output invariants. -/

theorem edge_indexOf_lt {g : Graph} {out : List String}
    (hgo : GoodOut g [] out) {a b : String}
    (ha : a ∈ out) (he : edgeB g a b = true) :
    b ∈ out ∧ out.indexOf b < out.indexOf a := by
  obtain ⟨hnd, _, hD, hF, hG⟩ := hgo
  have hb : b ∈ out := hD a ha b he
  refine ⟨hb, ?_⟩
  have hia : out.indexOf a < out.length := List.indexOf_lt_length.mpr ha
  have hib : out.indexOf b < out.length := List.indexOf_lt_length.mpr hb
  have hga : out.get ⟨out.indexOf a, hia⟩ = a := by
    rw [List.get_eq_getElem]
    exact List.getElem_indexOf hia
  have hgb : out.get ⟨out.indexOf b, hib⟩ = b := by
    rw [List.get_eq_getElem]
    exact List.getElem_indexOf hib
  rcases Nat.lt_trichotomy (out.indexOf a) (out.indexOf b) with hlt | heq | hgt
  · have hfa := (List.pairwise_iff_get.mp hF)
      ⟨out.indexOf a, hia⟩ ⟨out.indexOf b, hib⟩ hlt
    rw [hga, hgb] at hfa
    rw [hfa] at he
    simp at he
  · have : a = b := by
      rw [← hga, ← hgb]
      congr 1
      exact Fin.ext heq
    rw [this] at he
    rw [hG b hb] at he
    simp at he
  · exact hgt

theorem no_cycle_in_out {g : Graph} {out : List String} (hgo : GoodOut g [] out)
    {c : String} (hc : c ∈ out)
    (hcyc : Relation.TransGen (fun x y => edgeB g x y = true) c c) : False := by
  have key : ∀ a b : String, Relation.TransGen (fun x y => edgeB g x y = true) a b →
      a ∈ out → b ∈ out ∧ out.indexOf b < out.indexOf a := by
    intro a b htg
    induction htg with
    | single h => intro ha; exact edge_indexOf_lt hgo ha h
    | tail _ h ih =>
      intro ha
      obtain ⟨hb, hlt⟩ := ih ha
      obtain ⟨hc', hlt'⟩ := edge_indexOf_lt hgo hb h
      exact ⟨hc', by omega⟩
  obtain ⟨_, hlt⟩ := key c c hcyc hc
  omega

/-- The empty output with an empty gray path satisfies all invariants. -/
theorem GoodOut_nil (g : Graph) : GoodOut g [] [] :=
  ⟨List.nodup_nil, by simp, by simp, List.Pairwise.nil, by simp⟩

/-- Full specification of resolve on a well-formed acyclic registry:
success, no duplicates, exactly the reachable tasks, and every declared
prerequisite placed strictly before its dependent. -/
theorem resolve_spec {g : Graph} (hnd : (names g).Nodup) (hcl : Closed g)
    (hac : AcyclicB g) {name : String} (hreg : name ∈ names g) :
    ∃ l, resolve g name = .ok l ∧ l.Nodup ∧
      (∀ m, m ∈ l ↔ Reaches g name m) ∧
      (∀ i j : Fin l.length, edgeB g (l.get i) (l.get j) = true →
        (j : Nat) < (i : Nat)) := by
  have hfl : ([name]).length + need g [] [] ≤ resolveFuel g := by
    rw [List.length_singleton, resolveFuel_eq]
  obtain ⟨l, hok⟩ := resolveAux_total hnd hcl hac (GoodOut_nil g) List.nodup_nil
    (by simp)
    (by
      intro k hk
      rw [List.mem_singleton] at hk
      exact hk ▸ hreg)
    (by
      intro k hk
      exact trivial)
    hfl
  obtain ⟨hgo, hns, hmem⟩ := resolveAux_sound (GoodOut_nil g) hok
  have hord : ∀ i j : Fin l.length, edgeB g (l.get i) (l.get j) = true →
      (j : Nat) < (i : Nat) := by
    intro i j he
    obtain ⟨hnd', _, hD, hF, hG⟩ := hgo
    rcases Nat.lt_trichotomy (i : Nat) (j : Nat) with hlt | heq | hgt
    · have hfa := (List.pairwise_iff_get.mp hF) i j hlt
      rw [hfa] at he
      simp at he
    · have hx : l.get i = l.get j := by
        congr 1
        exact Fin.ext heq
      rw [← hx] at he
      rw [hG (l.get i) (List.get_mem l i.1 i.2)] at he
      simp at he
    · exact hgt
  refine ⟨l, hok, hgo.1, ?_, hord⟩
  intro m
  rw [hmem m]
  simp

/-- Success of the resolver is stable under extra fuel, with the same
output. -/
theorem resolveAux_fuel_mono {g : Graph} :
    ∀ {fuel : Nat} {gray out ns l : List String},
      resolveAux g fuel gray out ns = .ok l →
      resolveAux g (fuel + 1) gray out ns = .ok l := by
  intro fuel
  induction fuel with
  | zero =>
    intro gray out ns l h
    cases ns with
    | nil =>
      simp only [resolveAux, Except.ok.injEq] at h ⊢
      exact h
    | cons n rest => simp [resolveAux] at h
  | succ fuel ih =>
    intro gray out ns l h
    cases ns with
    | nil =>
      simp only [resolveAux, Except.ok.injEq] at h ⊢
      exact h
    | cons n rest =>
      rw [resolveAux.eq_3] at h
      rw [resolveAux.eq_3]
      by_cases hg : n ∈ gray
      · simp [hg] at h
      · rw [if_neg hg] at h ⊢
        by_cases ho : n ∈ out
        · rw [if_pos ho] at h ⊢
          exact ih h
        · rw [if_neg ho] at h ⊢
          split at h
          · simp at h
          · rename_i ps hp
            split at h
            · simp at h
            · rename_i out2 hrec
              simp only [hp, ih hrec]
              exact ih h

/-- Depth-first processing in declaration order: whenever the resolver
succeeds on a sibling worklist split as a prefix and a suffix, the prefix
fully resolves on its own — producing an intermediate output — and the
suffix then resolves from that intermediate output to the final result. -/
theorem resolveAux_split {g : Graph} :
    ∀ {ns1 : List String} {fuel : Nat} {ns2 gray out l : List String},
      resolveAux g fuel gray out (ns1 ++ ns2) = .ok l →
      ∃ mid, resolveAux g fuel gray out ns1 = .ok mid ∧
        resolveAux g fuel gray mid ns2 = .ok l := by
  intro ns1
  induction ns1 with
  | nil =>
    intro fuel ns2 gray out l h
    rw [List.nil_append] at h
    refine ⟨out, ?_, h⟩
    cases fuel <;> rfl
  | cons n rest1 ih =>
    intro fuel ns2 gray out l h
    cases fuel with
    | zero =>
      rw [List.cons_append] at h
      simp [resolveAux] at h
    | succ fuel =>
      rw [List.cons_append, resolveAux.eq_3] at h
      by_cases hg : n ∈ gray
      · simp [hg] at h
      · by_cases ho : n ∈ out
        · rw [if_neg hg, if_pos ho] at h
          obtain ⟨mid, h1, h2⟩ := ih h
          refine ⟨mid, ?_, resolveAux_fuel_mono h2⟩
          rw [resolveAux.eq_3, if_neg hg, if_pos ho]
          exact h1
        · rw [if_neg hg, if_neg ho] at h
          split at h
          · simp at h
          · rename_i ps hp
            split at h
            · simp at h
            · rename_i out2 hrec
              obtain ⟨mid, h1, h2⟩ := ih h
              refine ⟨mid, ?_, resolveAux_fuel_mono h2⟩
              rw [resolveAux.eq_3, if_neg hg, if_neg ho]
              simp only [hp, hrec]
              exact h1

/-- The empty output satisfies the invariants under any gray path. -/
theorem GoodOut_empty (g : Graph) (gray : List String) : GoodOut g gray [] :=
  ⟨List.nodup_nil, by simp, by simp, List.Pairwise.nil, by simp⟩

/-- A member of the left part of an append is found before the left
part's end. -/
theorem indexOf_append_lt {a : String} :
    ∀ {l1 : List String} (l2 : List String), a ∈ l1 →
      (l1 ++ l2).indexOf a < l1.length := by
  intro l1
  induction l1 with
  | nil => intro l2 h; simp at h
  | cons b l1 ih =>
    intro l2 h
    rw [List.cons_append]
    by_cases hb : b = a
    · rw [List.indexOf_cons_eq _ hb]
      simp
    · rw [List.indexOf_cons_ne _ hb]
      rw [List.mem_cons] at h
      rcases h with rfl | h
      · exact absurd rfl hb
      · have := ih l2 h
        rw [List.length_cons]
        omega

/-- An element absent from the left part of an append is found no earlier
than the left part's end. -/
theorem length_le_indexOf_append {a : String} :
    ∀ {l1 : List String} (l2 : List String), a ∉ l1 →
      l1.length ≤ (l1 ++ l2).indexOf a := by
  intro l1
  induction l1 with
  | nil => intro l2 h; simp
  | cons b l1 ih =>
    intro l2 h
    rw [List.mem_cons] at h
    push_neg at h
    rw [List.cons_append, List.indexOf_cons_ne _ (Ne.symm h.1), List.length_cons]
    have := ih l2 h.2
    omega

/-- Declaration-order tie-break at the output level: among the requested
task's declared prerequisites, if q is declared after p and is not
reachable from p nor from any sibling declared before p, then p is placed
strictly before q in the resolved order (p's whole subtree resolves
before q is examined). -/
theorem resolve_sibling_order {g : Graph} {name : String}
    {ps ps1 ps2 ps3 : List String} {p q : String} {l : List String}
    (hp : prereqs g name = some ps)
    (hshape : ps = ps1 ++ p :: ps2 ++ q :: ps3)
    (hind : ∀ s ∈ ps1 ++ p :: ps2, ¬ Reaches g s q)
    (hres : resolve g name = .ok l) :
    l.indexOf p < l.indexOf q := by
  have hF : resolveFuel g =
      (g.tasks.length + (g.tasks.map (fun p => p.2.length)).sum) + 1 := by
    rw [resolveFuel]
    omega
  unfold resolve at hres
  rw [hF, resolveAux.eq_3] at hres
  rw [if_neg (List.not_mem_nil name), if_neg (List.not_mem_nil name)] at hres
  split at hres
  · simp at hres
  · rename_i ps' hp'
    have hpse : ps' = ps := by
      rw [hp] at hp'
      exact (Option.some.inj hp').symm
    subst hpse
    split at hres
    · simp at hres
    · rename_i out2 hrec
      simp only [resolveAux, Except.ok.injEq] at hres
      subst hres
      rw [hshape] at hrec
      have hre : ps1 ++ p :: ps2 ++ q :: ps3 = (ps1 ++ p :: ps2) ++ q :: ps3 := by
        simp
      rw [hre] at hrec
      obtain ⟨mid, hA, hQ⟩ := resolveAux_split hrec
      obtain ⟨goA, hnsA, hmemA⟩ := resolveAux_sound (GoodOut_empty g [name]) hA
      have hpmid : p ∈ mid := hnsA p (by simp)
      have hqmid : q ∉ mid := by
        intro hq
        rcases (hmemA q).mp hq with hq' | ⟨s, hs, hr⟩
        · simp at hq'
        · exact hind s hs hr
      obtain ⟨ext, hee⟩ := resolveAux_extend hQ
      subst hee
      rw [List.append_assoc]
      have h1 := indexOf_append_lt (ext ++ [name]) hpmid
      have h2 := length_le_indexOf_append (ext ++ [name]) hqmid
      omega

/-- Height certificates force strict height descent along transitive
dependency chains. -/
theorem transGen_height_lt {g : Graph} {hgt : String → Nat}
    (hh : ∀ a b, edgeB g a b = true → hgt b < hgt a) {a b : String}
    (h : Relation.TransGen (fun x y => edgeB g x y = true) a b) :
    hgt b < hgt a := by
  induction h with
  | single h1 => exact hh _ _ h1
  | tail _ h1 ih => exact lt_trans (hh _ _ h1) ih

/-- Every declared prerequisite edge of the gulpfile graph strictly
decreases the concrete height certificate. -/
theorem gulp_edge_height {a b : String} (h : edgeB gulpGraph a b = true) :
    gulpHeight b < gulpHeight a := by
  rw [edgeB_iff] at h
  obtain ⟨ps, hp, hb⟩ := h
  have hmem : (a, ps) ∈ gulpGraph.tasks := lookupTask_mem hp
  have hall : ∀ p ∈ gulpGraph.tasks, ∀ q ∈ p.2, gulpHeight q < gulpHeight p.1 := by
    decide
  exact hall (a, ps) hmem b hb

/-- Whatever seed lists they start from, the live-process projection stays
inside the spawned-array projection along any event trace. -/
theorem live_subset_spawned_aux :
    ∀ (t : List PEvent) (l1 l2 : List Nat), (∀ p ∈ l1, p ∈ l2) →
      ∀ p ∈ t.foldl stepLive l1, p ∈ t.foldl stepSpawned l2 := by
  intro t
  induction t with
  | nil => intro l1 l2 h p hp; exact h p hp
  | cons e rest ih =>
    intro l1 l2 h p hp
    rw [List.foldl_cons] at hp ⊢
    refine ih _ _ ?_ p hp
    intro q hq
    cases e with
    | spawnEv r =>
      simp only [stepLive] at hq
      simp only [stepSpawned]
      rw [List.mem_append] at hq ⊢
      rcases hq with hq | hq
      · exact Or.inl (h q hq)
      · exact Or.inr hq
    | exitEv r =>
      simp only [stepLive] at hq
      simp only [stepSpawned]
      exact h q (List.mem_of_mem_filter hq)

/-- The fallback sink message is never the empty string. -/
theorem sink_fallback_ne_empty (s : String) :
    ("Task failed with code: " ++ s) ≠ "" := by
  intro h
  have h2 := congrArg String.length h
  rw [String.length_append] at h2
  have h3 : 0 < "Task failed with code: ".length := by decide
  have h4 : ("" : String).length = 0 := rfl
  rw [h4] at h2
  omega

/-! Claim theorems, counterexamples and witnesses. -/

/-- C1: spawnTask completion policy. A zero exit code invokes cb with no
error; a non-zero exit with failOnError true invokes cb with an error
carrying that exit code in its message; a non-zero exit with failOnError
false routes the code to the error sink (logged non-trivially, beeped,
no stream signal) and invokes cb with no error; a spawn-level error event
follows the same failOnError policy (cb(err) when true, report then cb()
when false). -/
theorem spawnTask_error_policy (code : Nat) (msg : String) :
    (∀ f : Bool, spawnTask f (.exitEv 0) =
      { beepDirect := false, sink := none, cbArg := none }) ∧
    (code ≠ 0 → spawnTask true (.exitEv code) =
      { beepDirect := true, sink := none,
        cbArg := some (.errObj ("Task failed with code " ++ toString code)) }) ∧
    (code ≠ 0 → (spawnTask false (.exitEv code)).cbArg = none ∧
      (spawnTask false (.exitEv code)).sink = some (onError none (.code code)) ∧
      (onError none (.code code)).beep = true ∧
      (onError none (.code code)).logMsg ≠ "") ∧
    (spawnTask true (.errorEv msg) =
      { beepDirect := true, sink := none, cbArg := some (.errObj msg) }) ∧
    ((spawnTask false (.errorEv msg)).cbArg = none ∧
      (spawnTask false (.errorEv msg)).sink = some (onError none (.errObj msg)) ∧
      (onError none (.errObj msg)).beep = true) := by
  refine ⟨fun f => by cases f <;> rfl, ?_, ?_, rfl, ⟨rfl, rfl, rfl⟩⟩
  · intro hc
    simp [spawnTask, hc]
  · intro hc
    refine ⟨by simp [spawnTask, hc], by simp [spawnTask, hc], rfl, ?_⟩
    simp only [onError, errMessage, chalkRed, errToString]
    exact sink_fallback_ne_empty (toString code)

/-- C1 witness: the policy applied at exit code 2 with failOnError true. -/
theorem spawnTask_error_policy_witness :
    spawnTask true (.exitEv 2) =
      { beepDirect := true, sink := none,
        cbArg := some (.errObj ("Task failed with code " ++ toString 2)) } :=
  (spawnTask_error_policy 2 "boom").2.1 (by decide)

/-- C2 counterexample: after spawning process 1 and observing its exit,
the spawned array still contains the handle while no child is live, so
the array does not hold exactly the still-live processes at shutdown and
exit does not remove handles. -/
theorem spawned_not_pruned_cex :
    runSpawned [.spawnEv 1, .exitEv 1] = [1] ∧
    liveProcesses [.spawnEv 1, .exitEv 1] = [] ∧
    runSpawned [.spawnEv 1, .exitEv 1] ≠ liveProcesses [.spawnEv 1, .exitEv 1] := by
  exact ⟨rfl, rfl, by decide⟩

/-- C2 amended: the spawned array is append-only — extended exactly on
spawn and untouched on child exit — so at parent shutdown it contains
every handle ever spawned, a superset of the still-live ones, and every
handle in it (hence every still-live child) is sent a termination
signal. -/
theorem spawned_lifecycle (t : List PEvent) :
    (∀ (l : List Nat) (p : Nat), stepSpawned l (.spawnEv p) = l ++ [p]) ∧
    (∀ (l : List Nat) (p : Nat), stepSpawned l (.exitEv p) = l) ∧
    (∀ p, p ∈ liveProcesses t → p ∈ runSpawned t) ∧
    shutdownSignals t = runSpawned t := by
  refine ⟨fun l p => rfl, fun l p => rfl, ?_, rfl⟩
  intro p hp
  exact live_subset_spawned_aux t [] [] (by simp) p hp

/-- C2 witness: a live process after one spawn is in the spawned array. -/
theorem spawned_lifecycle_witness :
    1 ∈ runSpawned [PEvent.spawnEv 1] :=
  (spawned_lifecycle [PEvent.spawnEv 1]).2.2.1 1 (by decide)

/-- C3 counterexample: when the deletion promise rejects, the svg-clean
callback is not invoked, so the task does not signal completion on that
outcome. -/
theorem svgClean_rejection_cex :
    ¬ (svgCleanSignalsCompletion (.error "EACCES: permission denied") = true) := by
  decide

/-- C3 amended: the svg-clean deletion step signals completion exactly
when the deletion promise fulfils (deleting an absent file fulfils); on a
rejection the callback is never invoked because the promise chain
installs no rejection handler. -/
theorem svgClean_completion :
    (∀ fs : List String, svgCleanSignalsCompletion (.ok fs) = true) ∧
    (∀ e : String, svgCleanSignalsCompletion (.error e) = false) :=
  ⟨fun _ => rfl, fun _ => rfl⟩

/-- C4: the prerequisite graph of all registered gulp tasks is acyclic: no
task name transitively depends on itself along declared prerequisite
edges. -/
theorem gulp_graph_acyclic (n : String) :
    Relation.TransGen (fun a b => edgeB gulpGraph a b = true) n n ↔ False := by
  constructor
  · intro htg
    exact absurd (transGen_height_lt (fun a b h => gulp_edge_height h) htg)
      (lt_irrefl _)
  · intro h
    exact h.elim

/-- C4 witness: instantiated at the default task. -/
theorem gulp_graph_acyclic_witness :
    Relation.TransGen (fun a b => edgeB gulpGraph a b = true)
      "default" "default" ↔ False :=
  gulp_graph_acyclic "default"

/-- C5 counterexample: a file-added event under the SASS watch does
trigger the bound lint action, contrary to the claim that only
file-changed events trigger it. -/
theorem watch_added_triggers_cex :
    sassWatchLint ⟨"added", "scss/main.scss"⟩ =
      some ("scss/main.scss", false, true) ∧
    sassWatchLint ⟨"added", "scss/main.scss"⟩ ≠ none := by
  exact ⟨rfl, by decide⟩

/-- C5 amended: under the SASS watch binding, both file-added and
file-changed events trigger exactly the bound lint action on the event's
path (failOnError false, log true); an event of any other kind does not
trigger it. -/
theorem sassWatchLint_spec (ev : WatchEvent) :
    (ev.type = "changed" → sassWatchLint ev = some (ev.path, false, true)) ∧
    (ev.type = "added" → sassWatchLint ev = some (ev.path, false, true)) ∧
    (ev.type ≠ "added" ∧ ev.type ≠ "changed" → sassWatchLint ev = none) := by
  refine ⟨?_, ?_, ?_⟩
  · intro h
    simp [sassWatchLint, h]
  · intro h
    simp [sassWatchLint, h]
  · rintro ⟨h1, h2⟩
    simp [sassWatchLint, h1, h2]

/-- C5 witness: a changed event triggers the lint action on its path. -/
theorem sassWatchLint_spec_witness :
    sassWatchLint ⟨"changed", "scss/x.scss"⟩ = some ("scss/x.scss", false, true) :=
  (sassWatchLint_spec ⟨"changed", "scss/x.scss"⟩).1 rfl

/-- C6: the registry's exact composite prerequisite lists: compile depends
on [sass, minify]; minify on [jsmin, svgmin, imagemin, copy-fonts];
default on [compile, eslint, sasslint, test]. -/
theorem gulp_registry_prereqs :
    prereqs gulpGraph "compile" = some ["sass", "minify"] ∧
    prereqs gulpGraph "minify" =
      some ["jsmin", "svgmin", "imagemin", "copy-fonts"] ∧
    prereqs gulpGraph "default" =
      some ["compile", "eslint", "sasslint", "test"] :=
  ⟨rfl, rfl, rfl⟩

/-- C7: for every closed registry of distinct names that is acyclic and
every registered task name, resolve succeeds with a duplicate-free list
containing exactly the tasks reachable from the name, in which every
declared prerequisite is placed strictly before its dependent. Sibling
prerequisites resolve depth-first in declaration order: any prefix of a
sibling worklist fully resolves — producing an intermediate output — before
the remaining siblings are examined, and among the requested task's
declared prerequisites a later-declared sibling not reachable from the
earlier-declared ones is placed strictly after them. On the scenario
registry (A no prerequisites, B needs A, C needs [A, B]) resolve of C
yields [A, B, C]; with the independent siblings declared [B, A] it yields
[B, A, C], following declaration order. -/
theorem resolver_correct (g : Graph) (name : String)
    (hnd : (names g).Nodup) (hcl : Closed g) (hac : AcyclicB g)
    (hreg : name ∈ names g) :
    (∃ l, resolve g name = .ok l ∧ l.Nodup ∧
      (∀ m, m ∈ l ↔ Reaches g name m) ∧
      (∀ i j : Fin l.length, edgeB g (l.get i) (l.get j) = true →
        (j : Nat) < (i : Nat))) ∧
    (∀ (fuel : Nat) (gray out ns1 ns2 l' : List String),
      resolveAux g fuel gray out (ns1 ++ ns2) = .ok l' →
      ∃ mid, resolveAux g fuel gray out ns1 = .ok mid ∧
        resolveAux g fuel gray mid ns2 = .ok l') ∧
    (∀ (ps ps1 ps2 ps3 : List String) (p q : String) (l : List String),
      prereqs g name = some ps →
      ps = ps1 ++ p :: ps2 ++ q :: ps3 →
      (∀ s ∈ ps1 ++ p :: ps2, ¬ Reaches g s q) →
      resolve g name = .ok l →
      l.indexOf p < l.indexOf q) ∧
    resolve abcGraph "C" = .ok ["A", "B", "C"] ∧
    resolve baGraph "C" = .ok ["B", "A", "C"] :=
  ⟨resolve_spec hnd hcl hac hreg,
   fun _ _ _ _ _ _ h => resolveAux_split h,
   fun _ _ _ _ _ _ _ hp hshape hind hres =>
     resolve_sibling_order hp hshape hind hres,
   rfl, rfl⟩

/-- C7 witness: the resolver specification applied to the scenario
registry at task C, with all well-formedness hypotheses discharged by
evaluation. -/
theorem resolver_correct_witness :
    (∃ l, resolve abcGraph "C" = .ok l ∧ l.Nodup ∧
      (∀ m, m ∈ l ↔ Reaches abcGraph "C" m) ∧
      (∀ i j : Fin l.length, edgeB abcGraph (l.get i) (l.get j) = true →
        (j : Nat) < (i : Nat))) ∧
    (∀ (fuel : Nat) (gray out ns1 ns2 l' : List String),
      resolveAux abcGraph fuel gray out (ns1 ++ ns2) = .ok l' →
      ∃ mid, resolveAux abcGraph fuel gray out ns1 = .ok mid ∧
        resolveAux abcGraph fuel gray mid ns2 = .ok l') ∧
    (∀ (ps ps1 ps2 ps3 : List String) (p q : String) (l : List String),
      prereqs abcGraph "C" = some ps →
      ps = ps1 ++ p :: ps2 ++ q :: ps3 →
      (∀ s ∈ ps1 ++ p :: ps2, ¬ Reaches abcGraph s q) →
      resolve abcGraph "C" = .ok l →
      l.indexOf p < l.indexOf q) ∧
    resolve abcGraph "C" = .ok ["A", "B", "C"] ∧
    resolve baGraph "C" = .ok ["B", "A", "C"] :=
  resolver_correct abcGraph "C" (by decide) (by decide) (by decide) (by decide)

/-- C8: for every closed registry of distinct names containing a
prerequisite cycle reachable from the requested registered task, resolve
terminates with the cyclic-dependency error, at resolution time. -/
theorem resolver_cycle_detected (g : Graph) (name : String)
    (hnd : (names g).Nodup) (hcl : Closed g) (hreg : name ∈ names g)
    (hcyc : ∃ c, Reaches g name c ∧
      Relation.TransGen (fun a b => edgeB g a b = true) c c) :
    resolve g name = .error .cyclic := by
  obtain ⟨c, hrc, htg⟩ := hcyc
  cases hres : resolve g name with
  | ok l =>
    obtain ⟨hgo, hns, hmem⟩ := resolveAux_sound (GoodOut_nil g) hres
    have hnamel : name ∈ l := hns name (List.mem_singleton_self name)
    have hclmem : c ∈ l := mem_of_reaches_closed hgo.2.2.1 hnamel hrc
    exact (no_cycle_in_out hgo hclmem htg).elim
  | error e =>
    have hfl : ([name]).length + need g [] [] ≤ resolveFuel g := by
      rw [List.length_singleton, resolveFuel_eq]
    have h2 := resolveAux_no_fuel_unknown hnd hcl
      (by
        intro k hk
        rw [List.mem_singleton] at hk
        exact hk ▸ hreg) hfl e hres
    cases e with
    | cyclic => rfl
    | unknownTask => exact absurd rfl h2.2
    | outOfFuel => exact absurd rfl h2.1

/-- C8 witness: the two-task cycle A needs B, B needs A, requested at A. -/
theorem resolver_cycle_detected_witness :
    resolve cycGraph "A" = .error .cyclic :=
  resolver_cycle_detected cycGraph "A" (by decide) (by decide) (by decide)
    ⟨"A", Relation.ReflTransGen.refl,
      Relation.TransGen.head (b := "B") (by decide)
        (Relation.TransGen.single (by decide))⟩

/-- C9: every invocation of the error sink beeps and logs a nonempty
human-readable message; it emits the stream-end signal exactly when
invoked with a receiver that has an emit method, and otherwise only logs
and beeps. -/
theorem onError_spec (recv : Option Bool) (e : ErrVal) :
    (onError recv e).beep = true ∧
    (onError recv e).logMsg ≠ "" ∧
    ((onError recv e).emitEnd = true ↔ recv = some true) := by
  refine ⟨rfl, ?_, ?_⟩
  · cases e with
    | errObj m =>
      by_cases hm : m = ""
      · simp only [onError, errMessage, chalkRed, errToString, hm, if_pos rfl]
        exact sink_fallback_ne_empty ("Error: " ++ "")
      · simp only [onError, errMessage, chalkRed, if_neg hm]
        exact hm
    | code c =>
      simp only [onError, errMessage, chalkRed, errToString]
      exact sink_fallback_ne_empty (toString c)
  · cases recv with
    | none => simp [onError]
    | some b => cases b <;> simp [onError]

/-- C9 witness: a receiver with an emit method gets the end signal. -/
theorem onError_spec_witness :
    (onError (some true) (.code 3)).emitEnd = true :=
  (onError_spec (some true) (.code 3)).2.2.mpr rfl

/-- C10: for either verbosity, getJsTestArgs ends with the mocha
invocation and its reporter (spec when verbose, dot otherwise), preceded
by exactly ten long-option assignment strings (one per scalar option and
one per element of each array option); the jstest task spawns nyc on the
verbose arguments with failOnError true, and jstest-nofail spawns nyc on
the non-verbose arguments with failOnError false. -/
theorem getJsTestArgs_spec (verbose : Bool) :
    (∃ opts, getJsTestArgs verbose = opts ++
        ["./node_modules/.bin/mocha", "--reporter",
          if verbose then "spec" else "dot"] ∧
      opts.length = 10 ∧ ∀ s ∈ opts, isOptionArg s = true) ∧
    jstestSpawn = ("./node_modules/.bin/nyc", getJsTestArgs true, true) ∧
    jstestNofailSpawn = ("./node_modules/.bin/nyc", getJsTestArgs false, false) := by
  refine ⟨?_, rfl, rfl⟩
  cases verbose with
  | false =>
    exact ⟨["--report-dir=./jscov", "--all=true", "--cache=true",
      "--reporter=lcovonly", "--reporter=html", "--reporter=text-summary",
      "--include=!**/flycheck_*", "--include=!**/.#*", "--include=index.js",
      "--include=lib/**/*.js"], by decide, by decide, by decide⟩
  | true =>
    exact ⟨["--report-dir=./jscov", "--all=true", "--cache=true",
      "--reporter=lcovonly", "--reporter=html", "--reporter=text",
      "--include=!**/flycheck_*", "--include=!**/.#*", "--include=index.js",
      "--include=lib/**/*.js"], by decide, by decide, by decide⟩

/-- C10 witness: the decomposition at verbose true, whose reporter is
spec. -/
theorem getJsTestArgs_spec_witness :
    (∃ opts, getJsTestArgs true = opts ++
        ["./node_modules/.bin/mocha", "--reporter", "spec"] ∧
      opts.length = 10 ∧ ∀ s ∈ opts, isOptionArg s = true) ∧
    jstestSpawn = ("./node_modules/.bin/nyc", getJsTestArgs true, true) ∧
    jstestNofailSpawn = ("./node_modules/.bin/nyc", getJsTestArgs false, false) :=
  getJsTestArgs_spec true

end Gulp
